import Mathlib

/-!
# Verification of the spot-backend accounting and caching core

Shallow embedding of the cost-basis engine, caching layer, numeric
adjustment helpers and signing entry point of the Binance.US spot
backend (src/server.js and src/unnamed/part_000 .. part_003).

JavaScript numbers are modelled as exact rationals (`ℚ`); the
floating-point drift the source clamps against cannot occur in the
model, but every arithmetic step of the source is reproduced verbatim.
Trades carry the fields the accounting code reads (`qty`, `price`,
`isBuyer`); `parseFloat` of the wire strings is the identity here.
-/

/-- A trade record as consumed by the accounting passes: the code reads
`t.qty`, `t.price` (via `parseFloat`) and the boolean `t.isBuyer`. -/
structure Trade where
  qty : ℚ
  price : ℚ
  isBuyer : Bool
deriving DecidableEq, Repr

/-- One step of the cost-basis pass of `app.get("/positions")`
(src/server.js lines 153-157, src/unnamed/part_002 lines 249-264):

```
const qty=parseFloat(t.qty), p=parseFloat(t.price), fee=qty*p*FEE_RATE;
if(t.isBuyer){ openQty+=qty; openCost+=qty*p+fee; }
else if(openQty>0){ const avg=openCost/openQty; openQty-=qty; openCost-=qty*avg;
                    if(openQty<0) openQty=0; if(openCost<0) openCost=0; }
```

The state is the pair `(openQty, openCost)`. -/
def posStep (feeRate : ℚ) (s : ℚ × ℚ) (t : Trade) : ℚ × ℚ :=
  let qty := t.qty
  let p := t.price
  let fee := qty * p * feeRate
  if t.isBuyer then (s.1 + qty, s.2 + (qty * p + fee))
  else if 0 < s.1 then
    let avg := s.2 / s.1
    let q1 := s.1 - qty
    let c1 := s.2 - qty * avg
    (if q1 < 0 then 0 else q1, if c1 < 0 then 0 else c1)
  else s

/-- The whole cost-basis pass of `app.get("/positions")`: the loop
`for(const t of trades){...}` starting from `openQty=0, openCost=0`. -/
def positionsFold (feeRate : ℚ) (trades : List Trade) : ℚ × ℚ :=
  trades.foldl (posStep feeRate) (0, 0)

/-- One step of the cost-basis pass of `app.get("/breakeven/:symbol")`
(src/server.js lines 190-194, src/unnamed/part_002 lines 304-317):

```
const q=parseFloat(t.qty), p=parseFloat(t.price), fee=q*p*FEE_RATE;
if(t.isBuyer){ qty+=q; cost+=q*p+fee; }
else if(qty>0){ const avg=cost/qty; qty-=q; cost-=q*avg; }
```

Unlike `posStep`, the sell branch has no clamping to zero. -/
def beStep (feeRate : ℚ) (s : ℚ × ℚ) (t : Trade) : ℚ × ℚ :=
  let q := t.qty
  let p := t.price
  let fee := q * p * feeRate
  if t.isBuyer then (s.1 + q, s.2 + (q * p + fee))
  else if 0 < s.1 then (s.1 - q, s.2 - q * (s.2 / s.1))
  else s

/-- The loop of `app.get("/breakeven/:symbol")` starting from
`qty=0, cost=0`. -/
def breakevenFold (feeRate : ℚ) (trades : List Trade) : ℚ × ℚ :=
  trades.foldl (beStep feeRate) (0, 0)

/-- The value reported by `app.get("/breakeven/:symbol")`:
`const be = qty>0? cost/qty : 0;` together with `totalQuantity = qty`. -/
def breakevenOf (feeRate : ℚ) (trades : List Trade) : ℚ × ℚ :=
  let s := breakevenFold feeRate trades
  (if 0 < s.1 then s.2 / s.1 else 0, s.1)

/-- The per-symbol tail of `app.get("/positions")` after the cost-basis
pass (src/server.js lines 158-172): skip if `openQty<=0`, compute
`value=openQty*price`, skip if `value<10` (dust filter), otherwise emit
`(positionAmt, breakEven, marketValue, unrealizedPL)`. -/
def processSymbol (feeRate : ℚ) (trades : List Trade) (price : ℚ) :
    Option (ℚ × ℚ × ℚ × ℚ) :=
  let s := positionsFold feeRate trades
  if s.1 ≤ 0 then none
  else
    let value := s.1 * price
    if value < 10 then none
    else
      let breakEven := s.2 / s.1
      some (s.1, breakEven, value, (price - breakEven) * s.1)

/-- The buys-only break-even endpoint `app.get("/breakeven/:symbol")` of
src/unnamed/part_000 (lines 186-204): filter the trades to buys, return
zeros when there are none, otherwise accumulate
`totalQty += qty; totalSpent += qty*price` and report
`(breakEven = totalSpent/totalQty, totalQuantity = totalQty, totalSpent)`.
No fee rate appears anywhere in this computation. -/
def buysOnlyBreakEven (trades : List Trade) : ℚ × ℚ × ℚ :=
  let buys := trades.filter (fun t => t.isBuyer)
  if buys.isEmpty then (0, 0, 0)
  else
    let acc := buys.foldl (fun (a : ℚ × ℚ) t => (a.1 + t.qty, a.2 + t.qty * t.price)) (0, 0)
    (acc.2 / acc.1, acc.1, acc.2)

section CacheLayer

/-- A cache slot as stored by the source: `{ data, ts }`, where an
absent / not-yet-fetched entry is `data: null` (account, exchange info)
or a missing map entry (trades, prices); both are `none` here. -/
structure CachedValue (α : Type) where
  data : Option α
  ts : ℤ
deriving DecidableEq, Repr

/-- The read-through pattern shared verbatim by all four cache sites
(src/server.js lines 47-51, 62-87; src/unnamed/part_002 lines 46-103):

```
if (slot.data && Date.now() - slot.ts < TTL) return slot.data;
const r = await fetcher();
slot = { data: r, ts: Date.now() };
return r;
```

`now` stands for `Date.now()`, `fetched` for the value the fetcher
would return, and the boolean records whether the fetcher was invoked. -/
def cacheGet {α : Type} (c : CachedValue α) (now ttl : ℤ) (fetched : α) :
    α × CachedValue α × Bool :=
  match c.data with
  | some v => if now - c.ts < ttl then (v, c, false) else (fetched, ⟨some fetched, now⟩, true)
  | none => (fetched, ⟨some fetched, now⟩, true)

def ACCOUNT_TTL : ℤ := 5000
def TRADES_TTL : ℤ := 60000
def PRICE_TTL : ℤ := 5000
def EXCHANGE_INFO_TTL : ℤ := 60 * 60 * 1000

/-- Function `getAccountCached` (src/server.js lines 62-68): the read-through
pattern on the single global `cache.account` slot with `ACCOUNT_TTL`. -/
def getAccountCached {α : Type} (c : CachedValue α) (now : ℤ) (fetched : α) :
    α × CachedValue α × Bool :=
  cacheGet c now ACCOUNT_TTL fetched

/-- Function `getTradesCached` (src/server.js lines 70-78): the read-through
pattern on the `cache.trades[symbol]` slot with `TRADES_TTL`; the map is
updated at `symbol` only. -/
def getTradesCached {α : Type} (m : String → CachedValue α) (symbol : String)
    (now : ℤ) (fetched : α) : α × (String → CachedValue α) × Bool :=
  let r := cacheGet (m symbol) now TRADES_TTL fetched
  (r.1, fun s => if s = symbol then r.2.1 else m s, r.2.2)

/-- Function `getPriceCached` (src/server.js lines 80-87): the read-through
pattern on the `cache.prices[symbol]` slot with `PRICE_TTL`. -/
def getPriceCached {α : Type} (m : String → CachedValue α) (symbol : String)
    (now : ℤ) (fetched : α) : α × (String → CachedValue α) × Bool :=
  let r := cacheGet (m symbol) now PRICE_TTL fetched
  (r.1, fun s => if s = symbol then r.2.1 else m s, r.2.2)

/-- Function `getExchangeInfo` (src/server.js lines 46-52): the read-through
pattern on the `exchangeInfoCache` slot with `EXCHANGE_INFO_TTL`. -/
def getExchangeInfo {α : Type} (c : CachedValue α) (now : ℤ) (fetched : α) :
    α × CachedValue α × Bool :=
  cacheGet c now EXCHANGE_INFO_TTL fetched

end CacheLayer

section NumericAdjustment

/-- The decimal rendering of a JavaScript number as `countDecimals`
dissects it.  The source receives `num.toString()` and immediately
splits it on `e`/`E` and on `.`; this type is that split: `plain n i f`
is the string `i.f` (with sign `n`), `sci n i f e` is the string
`i.f e±e`.  `f` is the list of fraction digits. -/
inductive NumStr where
  | plain (neg : Bool) (ip : ℕ) (frac : List ℕ)
  | sci (neg : Bool) (ip : ℕ) (frac : List ℕ) (exp : ℤ)
deriving DecidableEq, Repr

/-- Numeric value of a digit list read as an integer (`"107"` ↦ 107). -/
def digitsVal (l : List ℕ) : ℕ :=
  l.foldl (fun a d => 10 * a + d) 0

/-- Magnitude of the number a `NumStr` denotes. -/
def NumStr.mag : NumStr → ℚ
  | .plain _ i f => (i : ℚ) + (digitsVal f : ℚ) / 10 ^ f.length
  | .sci _ i f e => ((i : ℚ) + (digitsVal f : ℚ) / 10 ^ f.length) * (10 : ℚ) ^ e

/-- The number a `NumStr` denotes. -/
def NumStr.val (r : NumStr) : ℚ :=
  match r with
  | .plain neg _ _ => if neg then -r.mag else r.mag
  | .sci neg _ _ _ => if neg then -r.mag else r.mag

/-- Function `countDecimals` (src/unnamed/part_000 lines 36-46, part_003 lines
34-44), on the dissected rendering:

```
const s = num.toString();
if (s.includes("e") || s.includes("E")) {
    const [base, exp] = s.split(/e/i);
    const e = parseInt(exp, 10);
    const dec = (base.split('.')[1] || '').length;
    return Math.max(0, dec - e);
}
if (s.indexOf('.') >= 0) return s.split('.')[1].length;
return 0;
```

A plain rendering without a dot is `plain _ _ []`, so both plain cases
collapse to the fraction length. -/
def countDecimals : NumStr → ℕ
  | .plain _ _ f => f.length
  | .sci _ _ f e => (max 0 ((f.length : ℤ) - e)).toNat

/-- Canonical renderings, as `Number.prototype.toString` produces them:
every digit is a decimal digit, a nonempty fraction does not end in 0,
and a scientific rendering with no fraction has a mantissa that is not a
multiple of ten (`toString` mantissas are `d` or `d.d...d` with a single
leading digit `1..9`). -/
def NumStr.canonical : NumStr → Prop
  | .plain _ _ f => (∀ d ∈ f, d < 10) ∧ f.getLast? ≠ some 0
  | .sci _ i f _ => (∀ d ∈ f, d < 10) ∧ f.getLast? ≠ some 0 ∧ (f = [] → ¬(10 ∣ i))

instance (r : NumStr) : Decidable r.canonical := by
  cases r <;> simp only [NumStr.canonical] <;> infer_instance

/-- Predicate stating that `q` is an integer. -/
def isIntQ (q : ℚ) : Prop := ∃ z : ℤ, (z : ℚ) = q

/-- Value of `x.toFixed(d)` (ECMAScript `Number.prototype.toFixed`):
the integer `n` minimising `|n / 10^d - x|`, ties resolved to the
larger `n`; that is `⌊x·10^d + 1/2⌋ / 10^d`. -/
def toFixed (x : ℚ) (d : ℕ) : ℚ :=
  (⌊x * 10 ^ d + 1 / 2⌋ : ℚ) / 10 ^ d

/-- Outcome of the numeric helpers: a number, or the string `"NaN"`
(which JavaScript returns, rather than throwing, when a division by a
zero step/tick size floods the computation with non-finite values). -/
inductive NumResult where
  | num (q : ℚ)
  | nan
deriving DecidableEq, Repr

/-- Function `roundPrice` (src/unnamed/part_000 lines 49-52, part_003 lines
49-52):

```
const decimals = countDecimals(tickSize);
return (Math.floor(price / tickSize) * tickSize).toFixed(decimals);
```

`tickRepr` is the rendering of `tickSize`; its value is the numeric
`tickSize`.  With `tickSize = 0` JavaScript evaluates `price/0` to
`±Infinity` (or `NaN`), `Math.floor` and `* 0` turn it into `NaN`, and
`toFixed` renders the string `"NaN"`: modelled by `NumResult.nan`. -/
def roundPrice (price : ℚ) (tickRepr : NumStr) : NumResult :=
  let tickSize := tickRepr.val
  if tickSize = 0 then .nan
  else .num (toFixed (⌊price / tickSize⌋ * tickSize) (countDecimals tickRepr))

/-- Function `adjustQtyForLotSize` (src/unnamed/part_000 lines 55-60, part_003
lines 57-62):

```
let n = Math.floor(qty / stepSize) * stepSize;
if (n < minQty) n = minQty;
const decimals = countDecimals(stepSize);
return n.toFixed(decimals);
```

With `stepSize = 0`, `n` is `NaN`, `NaN < minQty` is false, and
`toFixed` renders `"NaN"`: modelled by `NumResult.nan`. -/
def adjustQtyForLotSize (qty : ℚ) (stepRepr : NumStr) (minQty : ℚ) : NumResult :=
  let stepSize := stepRepr.val
  if stepSize = 0 then .nan
  else
    let n0 := ⌊qty / stepSize⌋ * stepSize
    let n := if n0 < minQty then minQty else n0
    .num (toFixed n (countDecimals stepRepr))

end NumericAdjustment

section Signing

/-- Outcome of `signQuery`: a signed query string, or the `TypeError`
(`ERR_INVALID_ARG_TYPE`) that `crypto.createHmac` throws when its key
argument is `undefined`. -/
inductive SignResult where
  | ok (s : String)
  | typeError
deriving DecidableEq, Repr

/-- Function `signQuery` (src/server.js lines 37-41, src/unnamed/part_000 lines
27-31):

```
const qs = new URLSearchParams(params).toString();
const sig = crypto.createHmac("sha256", API_SECRET).update(qs).digest("hex");
return qs + "&signature=" + sig;
```

`qs` is the already-encoded parameter string (the URL encoding is an
external collaborator), `hmacHex key msg` the hex digest produced by the
crypto library, and `secret` the environment-supplied `API_SECRET`
(`none` when the variable is unset, in which case `createHmac` throws a
`TypeError`).  No validation of the secret appears in the source. -/
def signQuery (hmacHex : String → String → String) (secret : Option String)
    (qs : String) : SignResult :=
  match secret with
  | none => .typeError
  | some key => .ok (qs ++ "&signature=" ++ hmacHex key qs)

end Signing

section DecimalLemmas

/-- The mantissa of a rendering read as one integer: the integer part
followed by the fraction digits (`"12.34"` ↦ 1234). -/
def NumStr.mant : NumStr → ℕ
  | .plain _ i f => i * 10 ^ f.length + digitsVal f
  | .sci _ i f _ => i * 10 ^ f.length + digitsVal f

/-- Number of fraction digits of a rendering. -/
def NumStr.fracLen : NumStr → ℕ
  | .plain _ _ f => f.length
  | .sci _ _ f _ => f.length

theorem digitsVal_concat (l : List ℕ) (d : ℕ) :
    digitsVal (l ++ [d]) = 10 * digitsVal l + d := by
  simp [digitsVal, List.foldl_append]

theorem ten_not_dvd_mant (i : ℕ) (f : List ℕ) (hd : ∀ d ∈ f, d < 10)
    (hl : f.getLast? ≠ some 0) (hne : f ≠ []) :
    ¬ 10 ∣ (i * 10 ^ f.length + digitsVal f) := by
  rcases f.eq_nil_or_concat with rfl | ⟨l, a, rfl⟩
  · exact absurd rfl hne
  · rw [List.concat_eq_append] at *
    have ha0 : a ≠ 0 := by
      intro h; exact hl (by rw [h] at *; exact List.getLast?_concat l)
    have ha10 : a < 10 := hd a (by simp)
    rw [digitsVal_concat]
    intro hdvd
    have h1 : 10 ∣ i * 10 ^ (l ++ [a]).length := by
      refine Dvd.dvd.mul_left ?_ i
      simp [List.length_append, pow_succ]
    have h2 : 10 ∣ 10 * digitsVal l := Dvd.intro _ rfl
    have h3 : 10 ∣ a := by
      have := (Nat.dvd_add_right h2).mp ((Nat.dvd_add_right h1).mp hdvd)
      exact this
    omega

theorem isIntQ_mul_pow_le {x : ℚ} {d d' : ℕ} (h : d ≤ d') :
    isIntQ (x * 10 ^ d) → isIntQ (x * 10 ^ d') := by
  rintro ⟨z, hz⟩
  refine ⟨z * 10 ^ (d' - d), ?_⟩
  have h10 : (10 : ℚ) ^ d * 10 ^ (d' - d) = 10 ^ d' := by
    rw [← pow_add]; congr 1; omega
  push_cast
  rw [hz, mul_assoc, h10]

theorem le_of_not_isIntQ_pred {x : ℚ} {d : ℕ}
    (hnot : d = 0 ∨ ¬ isIntQ (x * 10 ^ (d - 1))) :
    ∀ d', isIntQ (x * 10 ^ d') → d ≤ d' := by
  intro d' hd'
  by_contra hlt
  push_neg at hlt
  rcases hnot with h0 | hn
  · omega
  · exact hn (isIntQ_mul_pow_le (by omega) hd')

theorem isIntQ_div_ten {n : ℤ} : isIntQ ((n : ℚ) / 10) ↔ (10 : ℤ) ∣ n := by
  constructor
  · rintro ⟨z, hz⟩
    refine ⟨z, ?_⟩
    have : (10 : ℚ) * z = n := by
      field_simp at hz
      linarith [hz]
    exact_mod_cast this.symm
  · rintro ⟨k, rfl⟩
    exact ⟨k, by push_cast; rw [mul_comm, mul_div_assoc]; norm_num⟩

theorem mag_plain (n : Bool) (i : ℕ) (f : List ℕ) :
    (NumStr.plain n i f).mag = ((NumStr.plain n i f).mant : ℚ) / 10 ^ f.length := by
  simp only [NumStr.mag, NumStr.mant]
  have h10 : (10 : ℚ) ^ f.length ≠ 0 := by positivity
  field_simp

theorem mag_sci (n : Bool) (i : ℕ) (f : List ℕ) (e : ℤ) :
    (NumStr.sci n i f e).mag =
      ((NumStr.sci n i f e).mant : ℚ) * (10 : ℚ) ^ (e - (f.length : ℤ)) := by
  simp only [NumStr.mag, NumStr.mant]
  have h10 : (10 : ℚ) ≠ 0 := by norm_num
  rw [zpow_sub₀ h10, zpow_natCast]
  have h10L : (10 : ℚ) ^ f.length ≠ 0 := by positivity
  field_simp

theorem isIntQ_mag_mul_pow (r : NumStr) : isIntQ (r.mag * 10 ^ countDecimals r) := by
  cases r with
  | plain n i f =>
    refine ⟨(NumStr.plain n i f).mant, ?_⟩
    rw [mag_plain, countDecimals]
    have h10 : (10 : ℚ) ^ f.length ≠ 0 := by positivity
    field_simp
  | sci n i f e =>
    by_cases he : e ≤ (f.length : ℤ)
    · have hmax : max 0 ((f.length : ℤ) - e) = (f.length : ℤ) - e := max_eq_right (by omega)
      have hd0 : ((countDecimals (NumStr.sci n i f e) : ℕ) : ℤ) = (f.length : ℤ) - e := by
        rw [countDecimals, hmax, Int.toNat_of_nonneg (by omega)]
      refine ⟨(NumStr.sci n i f e).mant, ?_⟩
      rw [mag_sci]
      have hpow : (10 : ℚ) ^ (countDecimals (NumStr.sci n i f e)) =
          (10 : ℚ) ^ ((f.length : ℤ) - e) := by
        rw [← zpow_natCast, hd0]
      rw [hpow, mul_assoc, ← zpow_add₀ (by norm_num : (10 : ℚ) ≠ 0)]
      have hz : e - (f.length : ℤ) + ((f.length : ℤ) - e) = 0 := by ring
      rw [hz, zpow_zero, mul_one]
      norm_cast
    · push_neg at he
      have hmax : max 0 ((f.length : ℤ) - e) = 0 := max_eq_left (by omega)
      have hd0 : countDecimals (NumStr.sci n i f e) = 0 := by
        rw [countDecimals, hmax]; rfl
      rw [hd0, pow_zero, mul_one, mag_sci]
      refine ⟨(NumStr.sci n i f e).mant * 10 ^ (e - (f.length : ℤ)).toNat, ?_⟩
      push_cast
      rw [← zpow_natCast (10 : ℚ) (e - (f.length : ℤ)).toNat,
        Int.toNat_of_nonneg (by omega)]

theorem not_isIntQ_mag_pred_plain (n : Bool) (i : ℕ) (f : List ℕ)
    (hd : ∀ d ∈ f, d < 10) (hl : f.getLast? ≠ some 0) (hne : f ≠ []) :
    ¬ isIntQ ((NumStr.plain n i f).mag * 10 ^ (f.length - 1)) := by
  have hL : 1 ≤ f.length := List.length_pos.mpr hne
  have hstep : (NumStr.plain n i f).mag * 10 ^ (f.length - 1) =
      ((NumStr.plain n i f).mant : ℚ) / 10 := by
    rw [mag_plain]
    conv_lhs => rw [show f.length = (f.length - 1) + 1 from by omega]
    rw [pow_succ]
    have h10 : (10 : ℚ) ^ (f.length - 1) ≠ 0 := by positivity
    field_simp
    ring
  rw [hstep]
  intro hint
  have hcast : (((NumStr.plain n i f).mant : ℤ) : ℚ) = ((NumStr.plain n i f).mant : ℚ) := by
    push_cast; rfl
  rw [← hcast] at hint
  have hdvd : (10 : ℤ) ∣ ((NumStr.plain n i f).mant : ℤ) := isIntQ_div_ten.mp hint
  exact ten_not_dvd_mant i f hd hl hne (by exact_mod_cast hdvd)

theorem not_isIntQ_mag_pred_sci (n : Bool) (i : ℕ) (f : List ℕ) (e : ℤ)
    (hd : ∀ d ∈ f, d < 10) (hl : f.getLast? ≠ some 0) (hip : f = [] → ¬ 10 ∣ i)
    (hcd : 1 ≤ countDecimals (NumStr.sci n i f e)) :
    ¬ isIntQ ((NumStr.sci n i f e).mag * 10 ^ (countDecimals (NumStr.sci n i f e) - 1)) := by
  have he : e < (f.length : ℤ) := by
    by_contra hc
    push_neg at hc
    have hmax : max 0 ((f.length : ℤ) - e) = 0 := max_eq_left (by omega)
    rw [countDecimals, hmax] at hcd
    simp at hcd
  have hmax : max 0 ((f.length : ℤ) - e) = (f.length : ℤ) - e := max_eq_right (by omega)
  have hd1 : ((countDecimals (NumStr.sci n i f e) - 1 : ℕ) : ℤ) = (f.length : ℤ) - e - 1 := by
    rw [countDecimals, hmax] at hcd ⊢
    omega
  have hstep : (NumStr.sci n i f e).mag * 10 ^ (countDecimals (NumStr.sci n i f e) - 1) =
      ((NumStr.sci n i f e).mant : ℚ) / 10 := by
    rw [mag_sci]
    rw [mul_assoc, ← zpow_natCast (10 : ℚ) (countDecimals (NumStr.sci n i f e) - 1), hd1,
      ← zpow_add₀ (by norm_num : (10 : ℚ) ≠ 0)]
    have hz : e - (f.length : ℤ) + ((f.length : ℤ) - e - 1) = -1 := by ring
    rw [hz, zpow_neg, zpow_one]
    rw [div_eq_mul_inv]
  rw [hstep]
  intro hint
  have hcast : (((NumStr.sci n i f e).mant : ℤ) : ℚ) = ((NumStr.sci n i f e).mant : ℚ) := by
    push_cast; rfl
  rw [← hcast] at hint
  have hdvd : (10 : ℤ) ∣ ((NumStr.sci n i f e).mant : ℤ) := isIntQ_div_ten.mp hint
  have hdvdn : 10 ∣ (NumStr.sci n i f e).mant := by exact_mod_cast hdvd
  rcases List.eq_nil_or_concat f with rfl | ⟨l, a, hfa⟩
  · have : (NumStr.sci n i ([] : List ℕ) e).mant = i := by
      simp [NumStr.mant, digitsVal]
    rw [this] at hdvdn
    exact hip rfl hdvdn
  · have hne : f ≠ [] := by rw [hfa]; simp
    exact ten_not_dvd_mant i f hd hl hne hdvdn

theorem countDecimals_le_of_isIntQ (r : NumStr) (h : r.canonical) :
    ∀ d, isIntQ (r.mag * 10 ^ d) → countDecimals r ≤ d := by
  cases r with
  | plain n i f =>
    rcases h with ⟨hd, hl⟩
    refine le_of_not_isIntQ_pred ?_
    rcases List.eq_nil_or_concat f with rfl | ⟨l, a, hfa⟩
    · exact Or.inl rfl
    · have hne : f ≠ [] := by rw [hfa]; simp
      exact Or.inr (not_isIntQ_mag_pred_plain n i f hd hl hne)
  | sci n i f e =>
    rcases h with ⟨hd, hl, hip⟩
    refine le_of_not_isIntQ_pred ?_
    by_cases hcd : 1 ≤ countDecimals (NumStr.sci n i f e)
    · exact Or.inr (not_isIntQ_mag_pred_sci n i f e hd hl hip hcd)
    · exact Or.inl (by omega)

theorem mag_nonneg (r : NumStr) : 0 ≤ r.mag := by
  cases r with
  | plain n i f =>
    simp only [NumStr.mag]
    positivity
  | sci n i f e =>
    simp only [NumStr.mag]
    positivity

theorem val_cases (r : NumStr) : r.val = r.mag ∨ r.val = -r.mag := by
  cases r with
  | plain n i f => by_cases hn : n <;> simp [NumStr.val, hn]
  | sci n i f e => by_cases hn : n <;> simp [NumStr.val, hn]

theorem mag_eq_abs (r : NumStr) : r.mag = |r.val| := by
  rcases val_cases r with h | h <;> rw [h]
  · exact (abs_of_nonneg (mag_nonneg r)).symm
  · rw [abs_neg]
    exact (abs_of_nonneg (mag_nonneg r)).symm

theorem isIntQ_val_mul_pow (r : NumStr) : isIntQ (r.val * 10 ^ countDecimals r) := by
  obtain ⟨z, hz⟩ := isIntQ_mag_mul_pow r
  rcases val_cases r with h | h
  · exact ⟨z, by rw [h, ← hz]⟩
  · exact ⟨-z, by rw [h]; push_cast; rw [hz]; ring⟩

theorem toFixed_exact (x : ℚ) (d : ℕ) (h : isIntQ (x * 10 ^ d)) : toFixed x d = x := by
  obtain ⟨z, hz⟩ := h
  have h10 : (10 : ℚ) ^ d ≠ 0 := by positivity
  have hfloor : ⌊x * 10 ^ d + 1 / 2⌋ = z := by
    rw [← hz, Int.floor_int_add]
    have : ⌊(1 / 2 : ℚ)⌋ = 0 := by
      rw [Int.floor_eq_zero_iff]
      constructor <;> norm_num
    omega
  rw [toFixed, hfloor]
  rw [eq_comm, eq_div_iff h10, ← hz]

end DecimalLemmas

section FoldLemmas

theorem posStep_foldl_buys (feeRate : ℚ) (l : List Trade) (s : ℚ × ℚ)
    (h : ∀ t ∈ l, t.isBuyer = true) :
    l.foldl (posStep feeRate) s =
      (s.1 + (l.map (fun t => t.qty)).sum,
       s.2 + (l.map (fun t => t.qty * t.price * (1 + feeRate))).sum) := by
  induction l generalizing s with
  | nil => simp
  | cons t l ih =>
    have hb : t.isBuyer = true := h t (by simp)
    rw [List.foldl_cons, ih _ (fun u hu => h u (by simp [hu]))]
    simp only [posStep, hb, if_true, List.map_cons, List.sum_cons]
    rw [Prod.ext_iff]
    constructor <;> · simp; ring

theorem beStep_foldl_buys (feeRate : ℚ) (l : List Trade) (s : ℚ × ℚ)
    (h : ∀ t ∈ l, t.isBuyer = true) :
    l.foldl (beStep feeRate) s =
      (s.1 + (l.map (fun t => t.qty)).sum,
       s.2 + (l.map (fun t => t.qty * t.price * (1 + feeRate))).sum) := by
  induction l generalizing s with
  | nil => simp
  | cons t l ih =>
    have hb : t.isBuyer = true := h t (by simp)
    rw [List.foldl_cons, ih _ (fun u hu => h u (by simp [hu]))]
    simp only [beStep, hb, if_true, List.map_cons, List.sum_cons]
    rw [Prod.ext_iff]
    constructor <;> · simp; ring

theorem buys_acc_foldl (l : List Trade) (s : ℚ × ℚ) :
    l.foldl (fun (a : ℚ × ℚ) t => (a.1 + t.qty, a.2 + t.qty * t.price)) s =
      (s.1 + (l.map (fun t => t.qty)).sum,
       s.2 + (l.map (fun t => t.qty * t.price)).sum) := by
  induction l generalizing s with
  | nil => simp
  | cons t l ih =>
    rw [List.foldl_cons, ih]
    simp only [List.map_cons, List.sum_cons]
    rw [Prod.ext_iff]
    constructor <;> · simp; ring

end FoldLemmas

section Claims

/-- C1: For every chronological trade sequence, fee rate, and current
price, the cost-basis pass of the positions computation starts from
`openQty = 0, openCost = 0`; a buy adds `qty` to `openQty` and
`qty*price + qty*price*feeRate` to `openCost`; a sell processed while
`openQty > 0` subtracts `qty` from `openQty` and `qty*(openCost/openQty)`
from `openCost`, clamping each to zero if negative; a sell processed
while `openQty == 0` leaves both unchanged. -/
theorem costBasis_pass_spec (feeRate : ℚ) (tr : List Trade) (t : Trade) (q c : ℚ) :
    positionsFold feeRate [] = (0, 0)
    ∧ positionsFold feeRate (tr ++ [t]) = posStep feeRate (positionsFold feeRate tr) t
    ∧ (t.isBuyer = true →
        posStep feeRate (q, c) t =
          (q + t.qty, c + (t.qty * t.price + t.qty * t.price * feeRate)))
    ∧ (t.isBuyer = false → 0 < q →
        posStep feeRate (q, c) t =
          (if q - t.qty < 0 then 0 else q - t.qty,
           if c - t.qty * (c / q) < 0 then 0 else c - t.qty * (c / q)))
    ∧ (t.isBuyer = false → q = 0 → posStep feeRate (q, c) t = (q, c)) := by
  refine ⟨rfl, ?_, ?_, ?_, ?_⟩
  · simp [positionsFold, List.foldl_append]
  · intro hb
    simp [posStep, hb]
  · intro hb hq
    simp only [posStep, hb, Bool.false_eq_true, if_false, if_pos hq]
  · intro hb hq
    simp [posStep, hb, hq]

theorem costBasis_pass_spec_witness :
    posStep 0 ((1 : ℚ), (4 : ℚ)) ⟨2, 3, false⟩ =
      (if (1 : ℚ) - 2 < 0 then 0 else 1 - 2,
       if (4 : ℚ) - 2 * (4 / 1) < 0 then 0 else 4 - 2 * (4 / 1)) :=
  (costBasis_pass_spec 0 [] ⟨2, 3, false⟩ 1 4).2.2.2.1 rfl (by norm_num)

/-- C2: refutation on the code.  The break-even pass (`beStep`, which
has no clamping) does leave negative `openQty` and `openCost` after an
oversell: buying 1 at 100 then selling 2 leaves `(-1, -100)`, while the
positions pass (`posStep`) clamps the same input to `(0, 0)`. -/
theorem breakeven_pass_oversell_negative :
    breakevenFold 0 [⟨1, 100, true⟩, ⟨2, 100, false⟩] = (-1, -100)
    ∧ (breakevenFold 0 [⟨1, 100, true⟩, ⟨2, 100, false⟩]).1 < 0
    ∧ (breakevenFold 0 [⟨1, 100, true⟩, ⟨2, 100, false⟩]).2 < 0
    ∧ positionsFold 0 [⟨1, 100, true⟩, ⟨2, 100, false⟩] = (0, 0) := by
  have hbe : breakevenFold 0 [⟨1, 100, true⟩, ⟨2, 100, false⟩] = (-1, -100) := by
    simp only [breakevenFold, List.foldl_cons, List.foldl_nil, beStep]
    norm_num
  have hpos : positionsFold 0 [⟨1, 100, true⟩, ⟨2, 100, false⟩] = (0, 0) := by
    simp only [positionsFold, List.foldl_cons, List.foldl_nil, posStep]
    norm_num
  refine ⟨hbe, ?_, ?_, hpos⟩ <;> rw [hbe] <;> norm_num

/-- C3: counterexample.  The buys-only break-even endpoint of
src/unnamed/part_000 reports the plain weighted average with no fee
term: for a single buy of 1 at 100 with fee rate 0.001 it reports 100,
not the fee-inclusive 100.1 the claim asserts. -/
theorem buysOnly_breakeven_fee_counterexample :
    (buysOnlyBreakEven [⟨1, 100, true⟩]).1 = 100
    ∧ (buysOnlyBreakEven [⟨1, 100, true⟩]).1 ≠ 1 * 100 * (1 + 1 / 1000) / 1 := by
  have h : (buysOnlyBreakEven [⟨1, 100, true⟩]).1 = 100 := by
    simp only [buysOnlyBreakEven, List.filter, List.isEmpty, List.foldl_cons, List.foldl_nil]
    norm_num
  refine ⟨h, ?_⟩
  rw [h]
  norm_num

/-- C3 (amended): for buys-only sequences with positive quantities, the
positions pass and the fee-aware break-even pass both end in
`(Σ qty, Σ qty*price*(1+feeRate))`, so their break-even is the
fee-inclusive weighted average and their openQty the sum of quantities;
the buys-only endpoint of part_000 reports the fee-free weighted
average (the feeRate = 0 instance) and the same total quantity. -/
theorem buys_only_weighted_average (feeRate : ℚ) (trades : List Trade)
    (hne : trades ≠ []) (hbuy : ∀ t ∈ trades, t.isBuyer = true)
    (hpos : ∀ t ∈ trades, 0 < t.qty) :
    positionsFold feeRate trades =
      ((trades.map (fun t => t.qty)).sum,
       (trades.map (fun t => t.qty * t.price * (1 + feeRate))).sum)
    ∧ breakevenFold feeRate trades =
      ((trades.map (fun t => t.qty)).sum,
       (trades.map (fun t => t.qty * t.price * (1 + feeRate))).sum)
    ∧ 0 < (trades.map (fun t => t.qty)).sum
    ∧ breakevenOf feeRate trades =
      ((trades.map (fun t => t.qty * t.price * (1 + feeRate))).sum /
         (trades.map (fun t => t.qty)).sum,
       (trades.map (fun t => t.qty)).sum)
    ∧ buysOnlyBreakEven trades =
      ((trades.map (fun t => t.qty * t.price)).sum / (trades.map (fun t => t.qty)).sum,
       (trades.map (fun t => t.qty)).sum,
       (trades.map (fun t => t.qty * t.price)).sum) := by
  have hsum : 0 < (trades.map (fun t => t.qty)).sum := by
    apply List.sum_pos
    · intro x hx
      obtain ⟨t, ht, rfl⟩ := List.mem_map.mp hx
      exact hpos t ht
    · intro hmap
      exact hne (List.map_eq_nil_iff.mp hmap)
  have h1 : positionsFold feeRate trades =
      ((trades.map (fun t => t.qty)).sum,
       (trades.map (fun t => t.qty * t.price * (1 + feeRate))).sum) := by
    rw [positionsFold, posStep_foldl_buys feeRate trades (0, 0) hbuy]
    simp
  have h2 : breakevenFold feeRate trades =
      ((trades.map (fun t => t.qty)).sum,
       (trades.map (fun t => t.qty * t.price * (1 + feeRate))).sum) := by
    rw [breakevenFold, beStep_foldl_buys feeRate trades (0, 0) hbuy]
    simp
  have hE : trades.isEmpty = false := by
    cases trades with
    | nil => exact absurd rfl hne
    | cons a l => rfl
  have hf : trades.filter (fun t => t.isBuyer) = trades :=
    List.filter_eq_self.mpr (fun t ht => hbuy t ht)
  refine ⟨h1, h2, hsum, ?_, ?_⟩
  · simp [breakevenOf, h2, hsum]
  · simp [buysOnlyBreakEven, hf, hE, buys_acc_foldl]

theorem buys_only_weighted_average_witness :
    positionsFold 0 [⟨1, 100, true⟩, ⟨1, 200, true⟩] =
      ((([⟨1, 100, true⟩, ⟨1, 200, true⟩] : List Trade).map (fun t => t.qty)).sum,
       (([⟨1, 100, true⟩, ⟨1, 200, true⟩] : List Trade).map
          (fun t => t.qty * t.price * (1 + 0))).sum) :=
  (buys_only_weighted_average 0 [⟨1, 100, true⟩, ⟨1, 200, true⟩]
    (by simp)
    (by intro t ht; simp only [List.mem_cons, List.not_mem_nil, or_false] at ht;
        rcases ht with rfl | rfl <;> rfl)
    (by intro t ht; simp only [List.mem_cons, List.not_mem_nil, or_false] at ht;
        rcases ht with rfl | rfl <;> norm_num)).1

/-- C4: after a sell whose quantity equals the openQty tracked just
before it (with openQty > 0), the positions pass ends with openQty and
openCost exactly 0. -/
theorem full_close_zero (feeRate : ℚ) (pre : List Trade) (t : Trade)
    (hsell : t.isBuyer = false) (hq : t.qty = (positionsFold feeRate pre).1)
    (hpos : 0 < (positionsFold feeRate pre).1) :
    positionsFold feeRate (pre ++ [t]) = (0, 0) := by
  have key : positionsFold feeRate (pre ++ [t]) =
      posStep feeRate (positionsFold feeRate pre) t := by
    simp [positionsFold, List.foldl_append]
  rw [key]
  have hne : (positionsFold feeRate pre).1 ≠ 0 := ne_of_gt hpos
  have h2 : (positionsFold feeRate pre).2 -
      (positionsFold feeRate pre).1 *
        ((positionsFold feeRate pre).2 / (positionsFold feeRate pre).1) = 0 := by
    rw [mul_comm, div_mul_cancel₀ _ hne, sub_self]
  simp only [posStep, hsell, Bool.false_eq_true, if_false, if_pos hpos, hq, sub_self, h2]
  simp

theorem full_close_zero_witness :
    positionsFold 0 ([⟨1, 5, true⟩] ++ [⟨1, 9, false⟩]) = (0, 0) :=
  full_close_zero 0 [⟨1, 5, true⟩] ⟨1, 9, false⟩ rfl
    (by simp only [positionsFold, List.foldl_cons, List.foldl_nil, posStep]; norm_num)
    (by simp only [positionsFold, List.foldl_cons, List.foldl_nil, posStep]; norm_num)

/-- C5: for every cached category, a read at `now` returns the stored
value without invoking the fetcher when a value is stored and
`now - fetchedAt < ttl`; otherwise it invokes the fetcher, stores the
result with the current timestamp, and returns it.  Two reads of the
same key within the TTL yield the identical stored value with exactly
one fetcher invocation; a read after the TTL has elapsed fetches again.
The four category helpers are exactly this pattern at their TTLs
(account 5000ms, trades 60000ms, price 5000ms, exchange info 1h). -/
theorem cache_ttl_spec :
    (∀ (α : Type) (c : CachedValue α) (now ttl : ℤ) (A v : α),
      c.data = some v → now - c.ts < ttl → cacheGet c now ttl A = (v, c, false))
    ∧ (∀ (α : Type) (c : CachedValue α) (now ttl : ℤ) (A : α),
        c.data = none → cacheGet c now ttl A = (A, ⟨some A, now⟩, true))
    ∧ (∀ (α : Type) (c : CachedValue α) (now ttl : ℤ) (A v : α),
        c.data = some v → ttl ≤ now - c.ts → cacheGet c now ttl A = (A, ⟨some A, now⟩, true))
    ∧ (∀ (α : Type) (c : CachedValue α) (t0 t1 ttl : ℤ) (A B : α),
        c.data = none → t1 - t0 < ttl →
          cacheGet c t0 ttl A = (A, ⟨some A, t0⟩, true)
          ∧ cacheGet (⟨some A, t0⟩ : CachedValue α) t1 ttl B = (A, ⟨some A, t0⟩, false))
    ∧ (∀ (α : Type) (t0 t1 ttl : ℤ) (A B : α),
        ttl ≤ t1 - t0 →
          cacheGet (⟨some A, t0⟩ : CachedValue α) t1 ttl B = (B, ⟨some B, t1⟩, true))
    ∧ (∀ (α : Type) (c : CachedValue α) (now : ℤ) (A : α),
        getAccountCached c now A = cacheGet c now 5000 A
        ∧ getExchangeInfo c now A = cacheGet c now 3600000 A)
    ∧ (∀ (α : Type) (m : String → CachedValue α) (symbol : String) (now : ℤ) (A : α),
        getTradesCached m symbol now A =
          ((cacheGet (m symbol) now 60000 A).1,
           fun s => if s = symbol then (cacheGet (m symbol) now 60000 A).2.1 else m s,
           (cacheGet (m symbol) now 60000 A).2.2)
        ∧ getPriceCached m symbol now A =
          ((cacheGet (m symbol) now 5000 A).1,
           fun s => if s = symbol then (cacheGet (m symbol) now 5000 A).2.1 else m s,
           (cacheGet (m symbol) now 5000 A).2.2)) := by
  refine ⟨?_, ?_, ?_, ?_, ?_, ?_, ?_⟩
  · intro α c now ttl A v h hlt
    simp [cacheGet, h, hlt]
  · intro α c now ttl A h
    simp [cacheGet, h]
  · intro α c now ttl A v h hge
    have hnlt : ¬ (now - c.ts < ttl) := not_lt.mpr hge
    simp [cacheGet, h, hnlt]
  · intro α c t0 t1 ttl A B h hlt
    refine ⟨by simp [cacheGet, h], ?_⟩
    simp [cacheGet, hlt]
  · intro α t0 t1 ttl A B hge
    have hnlt : ¬ (t1 - t0 < ttl) := not_lt.mpr hge
    simp [cacheGet, hnlt]
  · exact fun α c now A => ⟨rfl, rfl⟩
  · exact fun α m symbol now A => ⟨rfl, rfl⟩

theorem cache_ttl_spec_witness :
    cacheGet (⟨some 7, 0⟩ : CachedValue ℕ) 3 5000 9 = (7, ⟨some 7, 0⟩, false) :=
  cache_ttl_spec.1 ℕ ⟨some 7, 0⟩ 3 5000 9 7 rfl (by decide)

/-- C6: counterexample.  With `stepSize = 1` (zero rendered decimals),
`minQty = 0.4` and `qty = 0.2`, the floored value 0 is below `minQty`,
yet `adjustQtyForLotSize` returns `(0.4).toFixed(0) = "0"`, i.e. the
value 0: it neither returns `minQty` nor a value `≥ minQty`. -/
theorem adjustQty_min_counterexample :
    (⌊(1 / 5 : ℚ) / (NumStr.plain false 1 []).val⌋ * (NumStr.plain false 1 []).val < 2 / 5)
    ∧ adjustQtyForLotSize (1 / 5) (NumStr.plain false 1 []) (2 / 5) = .num 0
    ∧ ¬ ((2 / 5 : ℚ) ≤ 0) := by
  have hval : (NumStr.plain false 1 []).val = 1 := by
    simp [NumStr.val, NumStr.mag, digitsVal]
  have hfloor : ⌊(1 / 5 : ℚ) / 1⌋ = 0 := by
    norm_num
  refine ⟨?_, ?_, by norm_num⟩
  · rw [hval, hfloor]
    norm_num
  · simp only [adjustQtyForLotSize, hval, countDecimals]
    norm_num [toFixed]

/-- C6 (amended): when `minQty` is a (nonnegative integer) multiple of
the step size and the step size is positive, `adjustQtyForLotSize`
returns the floor of `qty` to a multiple of `stepSize`, replaced by
`minQty` when that floor falls below it; the result is `≥ minQty` and an
integer multiple of `stepSize`, and the `toFixed` formatting to
`countDecimals(stepSize)` digits is exact.  Without the multiple
hypothesis the formatted result can fall below `minQty`
(see the counterexample). -/
theorem adjustQty_spec (qty minQty : ℚ) (r : NumStr) (hstep : 0 < r.val)
    (k : ℕ) (hmin : minQty = (k : ℚ) * r.val) :
    ∃ v : ℚ,
      adjustQtyForLotSize qty r minQty = .num v
      ∧ v = (if ⌊qty / r.val⌋ * r.val < minQty then minQty else ⌊qty / r.val⌋ * r.val)
      ∧ minQty ≤ v
      ∧ ∃ j : ℤ, v = (j : ℚ) * r.val := by
  have hne : r.val ≠ 0 := ne_of_gt hstep
  set n := if ⌊qty / r.val⌋ * r.val < minQty then minQty else ⌊qty / r.val⌋ * r.val with hn
  obtain ⟨z, hz⟩ := isIntQ_val_mul_pow r
  have hj : ∃ j : ℤ, n = (j : ℚ) * r.val := by
    rw [hn]
    split
    · exact ⟨(k : ℤ), by rw [hmin]; push_cast; ring⟩
    · exact ⟨⌊qty / r.val⌋, rfl⟩
  obtain ⟨j, hjv⟩ := hj
  have hint : isIntQ (n * 10 ^ countDecimals r) := by
    refine ⟨j * z, ?_⟩
    push_cast
    rw [hjv, mul_assoc, ← hz]
  refine ⟨n, ?_, rfl, ?_, j, hjv⟩
  · simp only [adjustQtyForLotSize, if_neg hne]
    rw [← hn, toFixed_exact n (countDecimals r) hint]
  · rw [hn]
    split
    · exact le_refl minQty
    · next h => exact not_lt.mp h

theorem adjustQty_spec_witness :
    ∃ v : ℚ,
      adjustQtyForLotSize (1 / 4) (NumStr.plain false 0 [1]) (1 / 5) = .num v
      ∧ v = (if ⌊(1 / 4 : ℚ) / (NumStr.plain false 0 [1]).val⌋ * (NumStr.plain false 0 [1]).val
                < 1 / 5
             then (1 / 5 : ℚ)
             else ⌊(1 / 4 : ℚ) / (NumStr.plain false 0 [1]).val⌋ * (NumStr.plain false 0 [1]).val)
      ∧ (1 / 5 : ℚ) ≤ v
      ∧ ∃ j : ℤ, v = (j : ℚ) * (NumStr.plain false 0 [1]).val :=
  adjustQty_spec (1 / 4) (1 / 5) (NumStr.plain false 0 [1])
    (by norm_num [NumStr.val, NumStr.mag, digitsVal]) 2
    (by norm_num [NumStr.val, NumStr.mag, digitsVal])

/-- C7: `countDecimals` computes, for every canonical rendering, the
number of significant fractional digits of the denoted value: the least
`d` with `value * 10^d` an integer.  Hence plain and scientific
renderings of the same value agree; in particular the rendering `1e-7`
and the plain rendering `0.0000001` denote the same value and both
report 7 decimals (not 0). -/
theorem countDecimals_canonical_spec :
    (∀ r : NumStr, r.canonical →
      isIntQ (r.mag * 10 ^ countDecimals r)
      ∧ ∀ d, isIntQ (r.mag * 10 ^ d) → countDecimals r ≤ d)
    ∧ (∀ p s : NumStr, p.canonical → s.canonical → p.val = s.val →
        countDecimals p = countDecimals s)
    ∧ countDecimals (NumStr.sci false 1 [] (-7)) = 7
    ∧ countDecimals (NumStr.plain false 0 [0, 0, 0, 0, 0, 0, 1]) = 7
    ∧ (NumStr.sci false 1 [] (-7)).val = (NumStr.plain false 0 [0, 0, 0, 0, 0, 0, 1]).val := by
  refine ⟨fun r h => ⟨isIntQ_mag_mul_pow r, countDecimals_le_of_isIntQ r h⟩, ?_, ?_, ?_, ?_⟩
  · intro p s hp hs hv
    have hmag : p.mag = s.mag := by rw [mag_eq_abs, mag_eq_abs, hv]
    have l1 := countDecimals_le_of_isIntQ p hp (countDecimals s)
      (by rw [hmag]; exact isIntQ_mag_mul_pow s)
    have l2 := countDecimals_le_of_isIntQ s hs (countDecimals p)
      (by rw [← hmag]; exact isIntQ_mag_mul_pow p)
    omega
  · rfl
  · rfl
  · simp only [NumStr.val, NumStr.mag, digitsVal, List.foldl]
    norm_num

theorem countDecimals_canonical_spec_witness :
    countDecimals (NumStr.sci false 1 [] (-7)) =
      countDecimals (NumStr.plain false 0 [0, 0, 0, 0, 0, 0, 1]) :=
  countDecimals_canonical_spec.2.1 _ _ (by decide) (by decide)
    countDecimals_canonical_spec.2.2.2.2

/-- C8: counterexample.  With a step/tick size of 0 the numeric helpers
do not fail with any `InvalidFilterError` (none exists in the source):
the division by zero floods the computation with non-finite values and
both helpers return the string `"NaN"` — a returned value, not an
error. -/
theorem zeroStep_counterexample :
    (NumStr.plain false 0 []).val = 0
    ∧ roundPrice 7 (NumStr.plain false 0 []) = .nan
    ∧ adjustQtyForLotSize 3 (NumStr.plain false 0 []) (1 / 2) = .nan := by
  have hval : (NumStr.plain false 0 []).val = 0 := by
    simp [NumStr.val, NumStr.mag, digitsVal]
  exact ⟨hval, by simp [roundPrice, hval], by simp [adjustQtyForLotSize, hval]⟩

/-- C8 (amended): for every input whose step/tick rendering denotes 0,
`roundPrice` and `adjustQtyForLotSize` return the `"NaN"` string result
of the unguarded division by zero; no `InvalidFilterError` is raised. -/
theorem zeroStep_nan_spec (price qty minQty : ℚ) (r : NumStr) (h : r.val = 0) :
    roundPrice price r = .nan ∧ adjustQtyForLotSize qty r minQty = .nan := by
  exact ⟨by simp [roundPrice, h], by simp [adjustQtyForLotSize, h]⟩

theorem zeroStep_nan_spec_witness :
    roundPrice 5 (NumStr.plain false 0 []) = .nan
    ∧ adjustQtyForLotSize 1 (NumStr.plain false 0 []) (1 / 2) = .nan :=
  zeroStep_nan_spec 5 1 (1 / 2) (NumStr.plain false 0 [])
    (by simp [NumStr.val, NumStr.mag, digitsVal])

/-- C9: counterexample.  `signQuery` performs no validation of the
secret: with an empty (falsy) secret it still produces a signed query
string instead of failing with a `ConfigurationError`. -/
theorem signQuery_empty_secret_counterexample :
    signQuery (fun _ _ => ("abc123")) (some ("")) ("timestamp=1") =
      .ok ("timestamp=1&signature=abc123") :=
  rfl

/-- C9 (amended): `signQuery` never checks the secret itself: for every
present secret (empty included) it returns the signed query string, and
with an absent secret the underlying `crypto.createHmac` call throws a
`TypeError` (`ERR_INVALID_ARG_TYPE`) — no `ConfigurationError` exists in
the code. -/
theorem signQuery_no_secret_validation (hmacHex : String → String → String)
    (qs key : String) :
    signQuery hmacHex (some key) qs = .ok (qs ++ ("&signature=") ++ hmacHex key qs)
    ∧ signQuery hmacHex none qs = .typeError :=
  ⟨rfl, rfl⟩

/-- C10: the dust filter of the positions computation is a strict
comparison `value < 10`: with a positive open quantity, the position is
dropped exactly when `openQty * price < 10`; a market value of exactly
10 is included in the output. -/
theorem dust_filter_strict (feeRate price : ℚ) (trades : List Trade)
    (h : 0 < (positionsFold feeRate trades).1) :
    (processSymbol feeRate trades price = none
      ↔ (positionsFold feeRate trades).1 * price < 10)
    ∧ ((positionsFold feeRate trades).1 * price = 10 →
        processSymbol feeRate trades price =
          some ((positionsFold feeRate trades).1,
                (positionsFold feeRate trades).2 / (positionsFold feeRate trades).1,
                (positionsFold feeRate trades).1 * price,
                (price - (positionsFold feeRate trades).2 / (positionsFold feeRate trades).1) *
                  (positionsFold feeRate trades).1)) := by
  have hn : ¬ (positionsFold feeRate trades).1 ≤ 0 := not_le.mpr h
  constructor
  · constructor
    · intro hnone
      by_contra hge
      simp [processSymbol, hn, hge] at hnone
    · intro hlt
      simp [processSymbol, hn, hlt]
  · intro heq
    simp [processSymbol, hn, heq]

theorem dust_filter_strict_witness :
    processSymbol 0 [⟨1, 1, true⟩] 10 =
      some ((positionsFold 0 [⟨1, 1, true⟩]).1,
            (positionsFold 0 [⟨1, 1, true⟩]).2 / (positionsFold 0 [⟨1, 1, true⟩]).1,
            (positionsFold 0 [⟨1, 1, true⟩]).1 * 10,
            (10 - (positionsFold 0 [⟨1, 1, true⟩]).2 / (positionsFold 0 [⟨1, 1, true⟩]).1) *
              (positionsFold 0 [⟨1, 1, true⟩]).1) :=
  (dust_filter_strict 0 10 [⟨1, 1, true⟩]
    (by simp only [positionsFold, List.foldl_cons, List.foldl_nil, posStep]; norm_num)).2
    (by simp only [positionsFold, List.foldl_cons, List.foldl_nil, posStep]; norm_num)

end Claims
